import Mathlib

/-!
Verification of the execution/parsing/orchestration layer of the
`fortran-python-integration` repository (`python/ode_solver.py`).

The Python code is shallowly embedded:

* Python strings are Lean `String`s (operated on as `List Char`; the
  ASCII fragment of Python's whitespace handling is modelled, which is
  all the repository's data ever contains);
* Python floats are modelled as `PyFloat`: exact rationals plus the
  special values produced by `float("inf")` / `float("nan")`.  Real
  CPython floats are binary doubles; every numeric literal the parser
  accepts denotes an exact decimal rational, and `repr` of a double
  round-trips exactly, so the exact-rational model draws the same
  conclusions for the round-trip and parsing properties studied here;
* the backend subprocess is modelled by `BackendBehavior` (how long the
  child would run, its exit code and its captured stdout/stderr), and
  `subprocess.run(..., timeout=30, check=True)` by `subprocessRun`;
* Python exceptions escaping `solve` are an `Except SolveError` result,
  with one constructor per distinct `RuntimeError` re-raise site.
-/

namespace OdeSolver

/-- The ASCII whitespace characters stripped by Python's `str.strip()`
(and by `float()` on its argument). -/
def isPySpace (c : Char) : Bool :=
  c = ' ' ∨ c = '\t' ∨ c = '\n' ∨ c = '\r' ∨ c = '\x0b' ∨ c = '\x0c'

/-- Model of Python `str.strip()` on the character list. -/
def pyStripL (l : List Char) : List Char :=
  ((l.dropWhile isPySpace).reverse.dropWhile isPySpace).reverse

/-- Model of Python `str.strip()`. -/
def pyStrip (s : String) : String :=
  ⟨pyStripL s.toList⟩

/-- Model of Python `str.split(sep)` for a one-character separator:
splits at every occurrence and keeps empty pieces, so the result is
always nonempty (`"".split(",") == [""]`). -/
def pySplitL (sep : Char) : List Char → List (List Char)
  | [] => [[]]
  | c :: rest =>
    if c = sep then
      [] :: pySplitL sep rest
    else
      match pySplitL sep rest with
      | [] => [[c]]
      | g :: gs => (c :: g) :: gs

/-- Model of Python `str.split(sep)` for a one-character separator. -/
def pySplit (sep : Char) (s : String) : List String :=
  (pySplitL sep s.toList).map (fun l => ⟨l⟩)

/-- A Python float value: an exact rational, an infinity, or NaN. -/
inductive PyFloat where
  | finite (q : Rat)
  | inf (neg : Bool)
  | nan
deriving DecidableEq, Repr

/-- The decimal digit characters `'0'`–`'9'` (code points 48–57). -/
def isDigitChar (c : Char) : Bool :=
  48 ≤ c.toNat ∧ c.toNat ≤ 57

/-- Validates one digit group of a Python numeric literal and removes the
underscores: underscores may appear only singly and only between two
digits (`"1_0"` is valid, `"_1"`, `"1_"`, `"1__0"` are not).  The empty
group is accepted as `[]`; callers impose nonemptiness. -/
def digitsTail : List Char → Option (List Char)
  | [] => some []
  | c :: rest =>
    if c = '_' then
      match rest with
      | [] => none
      | c2 :: rest2 =>
        if isDigitChar c2 then (digitsTail rest2).map (fun ds => c2 :: ds) else none
    else if isDigitChar c then
      (digitsTail rest).map (fun ds => c :: ds)
    else none

/-- A digit group may not start with an underscore. -/
def digitsPart (l : List Char) : Option (List Char) :=
  match l with
  | [] => some []
  | c :: _ => if c = '_' then none else digitsTail l

/-- Numeric value of a (big-endian) list of digit characters, as Python
accumulates it. -/
def digitsVal (l : List Char) : Nat :=
  l.foldl (fun a c => a * 10 + (c.toNat - 48)) 0

/-- Splits at the first occurrence of one of two marker characters,
returning the prefix and the remainder after the marker when present. -/
def splitFirst (m1 m2 : Char) (l : List Char) : List Char × Option (List Char) :=
  let pre := l.takeWhile (fun c => ¬ (c = m1 ∨ c = m2))
  let rest := l.dropWhile (fun c => ¬ (c = m1 ∨ c = m2))
  match rest with
  | [] => (pre, none)
  | _ :: tail => (pre, some tail)

/-- Parses the exponent field of a Python float literal (after the
`e`/`E`): an optional sign and a nonempty digit group. -/
def parseExp (l : List Char) : Option Int :=
  match l with
  | [] => none
  | c :: rest =>
    if c = '+' then
      (digitsPart rest).bind fun ds =>
        if ds.isEmpty then none else some (digitsVal ds : Int)
    else if c = '-' then
      (digitsPart rest).bind fun ds =>
        if ds.isEmpty then none else some (-(digitsVal ds : Int))
    else
      (digitsPart (c :: rest)).bind fun ds =>
        if ds.isEmpty then none else some (digitsVal ds : Int)

/-- Parses an unsigned Python numeric literal `intpart [. fracpart] [(e|E)
[sign] digits]` where at least one mantissa digit is present, yielding
its exact rational value `(intpart.fracpart) · 10 ^ exponent`. -/
def parseDecimal (l : List Char) : Option Rat :=
  let se := splitFirst 'e' 'E' l
  match (match se.2 with | none => some (0 : Int) | some ep => parseExp ep) with
  | none => none
  | some e =>
    let sd := splitFirst '.' '.' se.1
    match digitsPart sd.1, digitsPart (sd.2.getD []) with
    | some intDs, some fracDs =>
      if intDs.isEmpty ∧ fracDs.isEmpty then
        none
      else
        let mantN : Nat := digitsVal intDs * 10 ^ fracDs.length + digitsVal fracDs
        some (mkRat (mantN * 10 ^ e.toNat : Nat) (10 ^ (fracDs.length + (-e).toNat)))
    | _, _ => none

/-- The body of `float()` after the optional sign has been removed:
the special spellings `inf` / `infinity` / `nan` (case-insensitive), or
a numeric literal. -/
def pyFloatCore (l : List Char) (neg : Bool) : Option PyFloat :=
  let low := l.map Char.toLower
  if low = "inf".toList ∨ low = "infinity".toList then
    some (.inf neg)
  else if low = "nan".toList then
    some .nan
  else
    (parseDecimal l).map fun q => .finite (if neg then -q else q)

/-- Model of Python's builtin `float(str)` (the ASCII fragment):
whitespace is stripped, an optional sign read, then either a special
value or a decimal/scientific literal; `none` models `ValueError`. -/
def pyFloat (s : String) : Option PyFloat :=
  match pyStripL s.toList with
  | [] => pyFloatCore [] false
  | c :: rest =>
    if c = '+' then pyFloatCore rest false
    else if c = '-' then pyFloatCore rest true
    else pyFloatCore (c :: rest) false

/-- Fuel-based little-endian base-10 digits (agrees with
`Nat.digits 10`, but reduces in the kernel). -/
def natDigitsAux : Nat → Nat → List Nat
  | 0, _ => []
  | fuel + 1, n => if n = 0 then [] else n % 10 :: natDigitsAux fuel (n / 10)

/-- Little-endian base-10 digits of `n` (empty for `0`). -/
def natDigits (n : Nat) : List Nat :=
  natDigitsAux n n

/-- Big-endian digit characters of `n` (empty for `0`). -/
def natDigitChars (n : Nat) : List Char :=
  ((natDigits n).map (fun d => Char.ofNat (d + 48))).reverse

/-- Decimal string of a natural number (`"0"` for `0`). -/
def natStr (n : Nat) : List Char :=
  if n = 0 then ['0'] else natDigitChars n

/-- Fuel-based base-`b` logarithm (agrees with `Nat.log`, but reduces in
the kernel). -/
def natLogAux (b : Nat) : Nat → Nat → Nat
  | 0, _ => 0
  | fuel + 1, n => if 1 < b ∧ b ≤ n then natLogAux b fuel (n / b) + 1 else 0

/-- Base-`b` logarithm of `n`. -/
def natLog (b n : Nat) : Nat :=
  natLogAux b n n

/-- An exponent `k` with `d ∣ 10 ^ k` whenever `d` divides any power of
ten (`d`'s prime factors are among 2 and 5). -/
def decExp (d : Nat) : Nat :=
  max (natLog 2 d) (natLog 5 d)

/-- Renders `a / 10 ^ k` as an unsigned decimal numeral with exactly `k`
fractional digits (`".0"` when `k = 0`). -/
def mkDecNat (a k : Nat) : List Char :=
  if k = 0 then
    natStr a ++ ['.', '0']
  else
    natStr (a / 10 ^ k) ++ ['.'] ++
      List.replicate (k - (natDigitChars (a % 10 ^ k)).length) '0' ++
        natDigitChars (a % 10 ^ k)

/-- Renders `m / 10 ^ k` as a signed decimal numeral. -/
def mkDec (m : Int) (k : Nat) : List Char :=
  (if m < 0 then ['-'] else []) ++ mkDecNat m.natAbs k

/-- Model of Python's `str`/`repr` of a float, as used by `csv.writer`
on the solver's samples.  CPython prints the shortest decimal string
that re-reads to the same double; in the exact-rational model we print
the exact decimal expansion (possibly with trailing zeros), which
likewise re-reads to the same value — the property `solve_to_file`'s
round trip relies on. -/
def pyRepr (x : PyFloat) : String :=
  match x with
  | .nan => "nan"
  | .inf true => "-inf"
  | .inf false => "inf"
  | .finite q =>
    let k := decExp q.den
    ⟨mkDec (q.num * ((10 ^ k / q.den : Nat) : Int)) k⟩

/-- The header filter of `solve` (line 104): `line.strip().startswith("t,y")`. -/
def headerLike (l : String) : Bool :=
  List.isPrefixOf "t,y".toList (pyStripL l.toList)

/-- The parsing loop of `solve` (lines 109–113): each line is stripped
and split on `","`; lines with other than two fields are skipped; on a
two-field line both fields go through `float()`, whose `ValueError`
(modelled by `.error`) escapes the loop and is re-raised by the generic
`except Exception` handler. -/
def parseLines : List String → Except String (List PyFloat × List PyFloat)
  | [] => .ok ([], [])
  | l :: rest =>
    match pySplit ',' (pyStrip l) with
    | [a, b] =>
      match pyFloat a with
      | none => .error ("could not convert string to float: " ++ a)
      | some t =>
        match pyFloat b with
        | none => .error ("could not convert string to float: " ++ b)
        | some y => (parseLines rest).map (fun p => (t :: p.1, y :: p.2))
    | _ => parseLines rest

/-- The data-line selection of `solve` (lines 103–104): strip the whole
stdout, split into lines, drop empty lines and lines whose stripped text
starts with `"t,y"`. -/
def dataLines (stdout : String) : List String :=
  (pySplit '\n' (pyStrip stdout)).filter (fun l => l ≠ "" ∧ ¬ headerLike l)

/-- Output parsing of `solve` (lines 102–113) on a captured stdout. -/
def parseStdout (stdout : String) : Except String (List PyFloat × List PyFloat) :=
  parseLines (dataLines stdout)

/-- What the backend child process would do: how many wall-clock seconds
it runs (`none` = never exits), and its exit code and captured output
text when it does exit. -/
structure BackendBehavior where
  duration : Option Nat
  exitCode : Int
  stdout : String
  stderr : String

/-- Outcome of one `subprocess.run` call. -/
inductive RunOutcome where
  | timedOut
  | finished (exitCode : Int) (stdout stderr : String)
deriving DecidableEq

/-- Result of `subprocess.run`, together with the number of child
processes still alive when the call returns or raises. -/
structure RunResult where
  outcome : RunOutcome
  childrenLeft : Nat

/-- Model of `subprocess.run(cmd, capture_output=True, text=True,
timeout=timeoutSec)` (line 94): raises `TimeoutExpired` when the child
has not exited within `timeoutSec` seconds.  CPython's `run` kills the
child before re-raising `TimeoutExpired`, and on the normal path the
child has exited by itself, so no child process remains alive in either
case (`childrenLeft = 0`). -/
def subprocessRun (timeoutSec : Nat) (b : BackendBehavior) : RunResult :=
  match b.duration with
  | none => ⟨.timedOut, 0⟩
  | some d =>
    if timeoutSec < d then ⟨.timedOut, 0⟩
    else ⟨.finished b.exitCode b.stdout b.stderr, 0⟩

/-- The `RuntimeError`s `solve` can raise, one constructor per re-raise
site (lines 118–123). -/
inductive SolveError where
  | timeout
  | processFailure (stderr : String)
  | runtime (msg : String)
deriving DecidableEq, Repr

/-- The four scalar solve parameters with their declared defaults
(`t0=0.0, tf=10.0, y0=1.0, n_steps=100`). -/
structure SolveReq where
  t0 : PyFloat := .finite 0
  tf : PyFloat := .finite 10
  y0 : PyFloat := .finite 1
  nsteps : PyFloat := .finite 100
deriving DecidableEq

/-- The argument vector `solve` executes (line 95): just
`[str(self.executable_path)]` — the request parameters are only logged,
never placed on the command line. -/
def solveCommand (exePath : String) (req : SolveReq) : List String :=
  [exePath]

/-- `FortranODESolver.solve` (lines 64–123): runs the backend with a
30-second timeout and `check=True`, parses its stdout, and maps each
escaping exception to the corresponding `RuntimeError`.  Returns the
executed command together with the call's result. -/
def solveRun (exePath : String) (req : SolveReq) (b : BackendBehavior) :
    List String × Except SolveError (List PyFloat × List PyFloat) :=
  let cmd := solveCommand exePath req
  match (subprocessRun 30 b).outcome with
  | .timedOut => (cmd, .error .timeout)
  | .finished code out err =>
    if code ≠ 0 then (cmd, .error (.processFailure err))
    else
      match parseStdout out with
      | .ok s => (cmd, .ok s)
      | .error m => (cmd, .error (.runtime ("Error running Fortran solver: " ++ m)))

/-- The `FileNotFoundError`s of `FortranODESolver.__init__`. -/
inductive InitError where
  | notFound (msg : String)
deriving DecidableEq, Repr

/-- `FortranODESolver.__init__` (lines 30–62) over an abstract
filesystem `fs` (the set of existing paths) and the ordered candidate
list it probes: an explicit path is taken verbatim, otherwise the first
existing candidate; the chosen path is then existence-checked.
Construction spawns no child process (no `BackendBehavior` is
involved). -/
def initSolver (fs : String → Bool) (candidates : List String)
    (explicitPath : Option String) : Except InitError String :=
  match explicitPath with
  | some p =>
    if fs p then .ok p else .error (.notFound ("Executable not found: " ++ p))
  | none =>
    match candidates.find? fs with
    | none => .error (.notFound "Could not find ode_solver executable.")
    | some p =>
      if fs p then .ok p else .error (.notFound ("Executable not found: " ++ p))

/-- The four keyword names `parameter_sweep` may vary. -/
inductive ParamName where
  | t0 | tf | y0 | n_steps
deriving DecidableEq

/-- The keyword-argument dictionary passed to `solve(**kwargs)`,
restricted to the four keys `solve` accepts. -/
structure SolveKwargs where
  t0 : Option PyFloat := none
  tf : Option PyFloat := none
  y0 : Option PyFloat := none
  nsteps : Option PyFloat := none
deriving DecidableEq

/-- `kwargs[param_name] = value` (line 173). -/
def setParam (kw : SolveKwargs) (p : ParamName) (v : PyFloat) : SolveKwargs :=
  match p with
  | .t0 => { kw with t0 := some v }
  | .tf => { kw with tf := some v }
  | .y0 => { kw with y0 := some v }
  | .n_steps => { kw with nsteps := some v }

/-- Binding `solve(**kwargs)`: absent keys take `solve`'s declared
defaults. -/
def reqOfKwargs (kw : SolveKwargs) : SolveReq :=
  { t0 := kw.t0.getD (.finite 0)
    tf := kw.tf.getD (.finite 10)
    y0 := kw.y0.getD (.finite 1)
    nsteps := kw.nsteps.getD (.finite 100) }

/-- `solver.solve(**kwargs)` as called from `parameter_sweep`. -/
def solveKw (exePath : String) (kw : SolveKwargs) (b : BackendBehavior) :
    Except SolveError (List PyFloat × List PyFloat) :=
  (solveRun exePath (reqOfKwargs kw) b).2

/-- The loop of `parameter_sweep` (lines 171–177); `idx` numbers the
solve calls so that `behaviors idx` is the backend behaviour seen by the
idx-th spawned child. -/
def sweepGo (exePath : String) (pname : ParamName) (base : SolveKwargs)
    (behaviors : Nat → BackendBehavior) :
    List PyFloat → Nat → Except SolveError (List (PyFloat × (List PyFloat × List PyFloat)))
  | [], _ => .ok []
  | v :: rest, idx =>
    match solveKw exePath (setParam base pname v) (behaviors idx) with
    | .error e => .error e
    | .ok s =>
      match sweepGo exePath pname base behaviors rest (idx + 1) with
      | .error e => .error e
      | .ok rs => .ok ((v, s) :: rs)

/-- `parameter_sweep` (lines 149–179): one sequential solve per value,
in input order, appending `(value, t_vals, y_vals)`; any exception
propagates immediately. -/
def parameter_sweep (exePath : String) (pname : ParamName) (vals : List PyFloat)
    (base : SolveKwargs) (behaviors : Nat → BackendBehavior) :
    Except SolveError (List (PyFloat × (List PyFloat × List PyFloat))) :=
  sweepGo exePath pname base behaviors vals 0

/-- One data row written by `csv.writer` (default dialect, so the line
terminator is `"\r\n"` and the float fields are `str(...)` = `repr`;
the fields contain no delimiter or quote, so no quoting occurs). -/
def csvLine (t y : PyFloat) : String :=
  pyRepr t ++ "," ++ pyRepr y ++ "\r\n"

/-- The writer loop of `solve_to_file` (lines 142–143): one row per
pair, in order. -/
def writeRows : List (PyFloat × PyFloat) → String
  | [] => ""
  | p :: rest => csvLine p.1 p.2 ++ writeRows rest

/-- The file content produced by `solve_to_file` (lines 139–143): the
header row `t,y` then one row per `zip(t_vals, y_vals)` pair. -/
def writeCSV (ts ys : List PyFloat) : String :=
  "t,y\r\n" ++ writeRows (ts.zip ys)

/-- `FortranODESolver.solve_to_file` (lines 125–146), returning the
written file's content. -/
def solve_to_file (exePath : String) (req : SolveReq) (b : BackendBehavior) :
    Except SolveError String :=
  match (solveRun exePath req b).2 with
  | .ok (ts, ys) => .ok (writeCSV ts ys)
  | .error e => .error e

/-- The characters of one written data row, without its `"\r\n"`
terminator. -/
def rowChars (p : PyFloat × PyFloat) : List Char :=
  (pyRepr p.1).data ++ ',' :: (pyRepr p.2).data

/-- The characters of the written rows with the final row's `"\r\n"`
terminator removed — the shape `strip` leaves behind. -/
def bodyCore : List (PyFloat × PyFloat) → List Char
  | [] => []
  | [p] => rowChars p
  | p :: rest => rowChars p ++ '\r' :: '\n' :: bodyCore rest

/-- The written rows as the line splitter recovers them: every row but
the last keeps a trailing `'\r'`. -/
def splitRows : List (PyFloat × PyFloat) → List (List Char)
  | [] => []
  | [p] => [rowChars p]
  | p :: rest => (rowChars p ++ ['\r']) :: splitRows rest

/-- A line the parsing loop fully accepts: it strips and splits on `","`
into exactly two fields and both fields pass `float()`; the accepted
(time, value) pair. -/
def wellFormed (l : String) : Option (PyFloat × PyFloat) :=
  match pySplit ',' (pyStrip l) with
  | [a, b] =>
    match pyFloat a, pyFloat b with
    | some t, some y => some (t, y)
    | _, _ => none
  | _ => none

/-- A line the parsing loop silently skips: it does not split into
exactly two comma-separated fields. -/
def discarded (l : String) : Bool :=
  (pySplit ',' (pyStrip l)).length ≠ 2

theorem parseLines_ok_length {ls : List String} {ts ys : List PyFloat}
    (h : parseLines ls = .ok (ts, ys)) : ts.length = ys.length := by
  induction ls generalizing ts ys with
  | nil =>
    simp only [parseLines, Except.ok.injEq, Prod.mk.injEq] at h
    rw [← h.1, ← h.2]
  | cons l rest ih =>
    rw [parseLines] at h
    split at h
    · split at h
      · exact absurd h (by simp)
      · split at h
        · exact absurd h (by simp)
        · cases hrec : parseLines rest with
          | error m => rw [hrec] at h; exact absurd h (by simp [Except.map])
          | ok p =>
            rw [hrec] at h
            obtain ⟨t1, y1⟩ := p
            simp only [Except.map, Except.ok.injEq, Prod.mk.injEq] at h
            rw [← h.1, ← h.2]
            simpa using ih hrec
    · exact ih h

/-- C1: the requested parameters t0/tf/y0/n_steps have no effect on a
solve call: the executed command is always just the executable path with
no arguments, and under identical backend behaviour two solve calls with
different requests yield identical results. -/
theorem solve_params_have_no_effect (exePath : String) (req req' : SolveReq)
    (b : BackendBehavior) :
    solveCommand exePath req = [exePath] ∧
      solveRun exePath req b = solveRun exePath req' b :=
  ⟨rfl, rfl⟩

/-- C9: every successful solve call returns a time list and a value list
of equal (non-negative) length. -/
theorem solve_series_equal_length (exePath : String) (req : SolveReq)
    (b : BackendBehavior) (ts ys : List PyFloat)
    (h : (solveRun exePath req b).2 = .ok (ts, ys)) :
    ts.length = ys.length ∧ 0 ≤ ts.length := by
  refine ⟨?_, Nat.zero_le _⟩
  rw [solveRun] at h
  split at h
  · exact absurd h (by simp)
  · split at h
    · exact absurd h (by simp)
    · split at h
      · simp only [Except.ok.injEq] at h
        rename_i s hs
        rw [h] at hs
        exact parseLines_ok_length hs
      · exact absurd h (by simp)

theorem solve_series_equal_length_witness :
    [PyFloat.finite 1].length = [PyFloat.finite 2].length ∧
      0 ≤ [PyFloat.finite 1].length :=
  solve_series_equal_length "ode_solver" {} ⟨some 1, 0, "t,y\n1,2\n", ""⟩ _ _ (by rfl)

/-- C5: constructing a solver handle with an explicitly supplied path
that does not exist fails with the NotFound error, and no successfully
constructed handle holds a non-existent path. -/
theorem init_nonexistent_explicit_fails :
    (∀ (fs : String → Bool) (candidates : List String) (p : String), fs p = false →
      initSolver fs candidates (some p) =
        .error (.notFound ("Executable not found: " ++ p)))
    ∧ (∀ (fs : String → Bool) (candidates : List String) (ep : Option String)
        (q : String), initSolver fs candidates ep = .ok q → fs q = true) := by
  constructor
  · intro fs cands p h
    simp [initSolver, h]
  · intro fs cands ep q h
    unfold initSolver at h
    split at h
    · split at h
      · rename_i hfs
        simp only [Except.ok.injEq] at h
        rw [← h]; exact hfs
      · exact absurd h (by simp)
    · split at h
      · exact absurd h (by simp)
      · split at h
        · rename_i hfs
          simp only [Except.ok.injEq] at h
          rw [← h]; exact hfs
        · exact absurd h (by simp)

theorem init_nonexistent_explicit_fails_witness :
    initSolver (fun _ => false) [] (some "/missing/ode_solver") =
      .error (.notFound ("Executable not found: " ++ "/missing/ode_solver")) :=
  init_nonexistent_explicit_fails.1 (fun _ => false) [] "/missing/ode_solver" rfl

/-- C7: a solve call fails with the Timeout error exactly when the
backend has not exited within the configured 30-second timeout, and no
child process remains running after the call. -/
theorem solve_timeout_iff (exePath : String) (req : SolveReq) (b : BackendBehavior) :
    ((solveRun exePath req b).2 = .error .timeout ↔
      (b.duration = none ∨ ∃ d, b.duration = some d ∧ 30 < d))
    ∧ (subprocessRun 30 b).childrenLeft = 0 := by
  obtain ⟨dur, code, out, err⟩ := b
  constructor
  · cases dur with
    | none => simp [solveRun, subprocessRun, solveCommand]
    | some d =>
      by_cases hd : 30 < d
      · simp [solveRun, subprocessRun, hd]
      · simp only [solveRun, subprocessRun, if_pos hd, if_neg hd, solveCommand]
        constructor
        · intro h
          split at h
          · exact absurd h (by simp)
          · split at h
            · exact absurd h (by simp)
            · exact absurd h (by simp)
        · intro h
          rcases h with h | ⟨d', hd', hgt⟩
          · exact absurd h (by simp)
          · simp only [Option.some.injEq] at hd'
            omega
  · cases dur with
    | none => rfl
    | some d =>
      by_cases hd : 30 < d
      · simp [subprocessRun, hd]
      · simp [subprocessRun, hd]

theorem solve_timeout_iff_witness :
    (solveRun "ode_solver" {} ⟨none, 0, "", ""⟩).2 = .error .timeout :=
  (solve_timeout_iff "ode_solver" {} ⟨none, 0, "", ""⟩).1.mpr (Or.inl rfl)

theorem sweepGo_ok_map_fst (exePath : String) (pname : ParamName)
    (base : SolveKwargs) (behaviors : Nat → BackendBehavior) :
    ∀ (vals : List PyFloat) (idx : Nat)
      (res : List (PyFloat × (List PyFloat × List PyFloat))),
      sweepGo exePath pname base behaviors vals idx = .ok res →
      res.map Prod.fst = vals := by
  intro vals
  induction vals with
  | nil =>
    intro idx res h
    simp only [sweepGo, Except.ok.injEq] at h
    rw [← h]; rfl
  | cons v rest ih =>
    intro idx res h
    rw [sweepGo] at h
    split at h
    · exact absurd h (by simp)
    · split at h
      · exact absurd h (by simp)
      · rename_i s _ rs hrs
        simp only [Except.ok.injEq] at h
        rw [← h]
        simpa using ih (idx + 1) rs hrs

/-- C4: when every underlying solve call succeeds, `parameter_sweep`
returns one entry per input value, in input order, the first component
of the i-th entry being the i-th value. -/
theorem parameter_sweep_preserves_values (exePath : String) (pname : ParamName)
    (vals : List PyFloat) (base : SolveKwargs) (behaviors : Nat → BackendBehavior)
    (res : List (PyFloat × (List PyFloat × List PyFloat)))
    (h : parameter_sweep exePath pname vals base behaviors = .ok res) :
    res.length = vals.length ∧ res.map Prod.fst = vals := by
  have h2 := sweepGo_ok_map_fst exePath pname base behaviors vals 0 res h
  refine ⟨?_, h2⟩
  rw [← h2]
  simp

theorem parameter_sweep_preserves_values_witness :
    (([((PyFloat.finite (mkRat 1 2)), ([], [])), (PyFloat.finite 1, ([], [])),
        (PyFloat.finite 2, ([], []))] :
          List (PyFloat × (List PyFloat × List PyFloat))).length =
      [PyFloat.finite (mkRat 1 2), PyFloat.finite 1, PyFloat.finite 2].length) ∧
    List.map Prod.fst
        ([((PyFloat.finite (mkRat 1 2)), ([], [])), (PyFloat.finite 1, ([], [])),
          (PyFloat.finite 2, ([], []))] :
            List (PyFloat × (List PyFloat × List PyFloat))) =
      [PyFloat.finite (mkRat 1 2), PyFloat.finite 1, PyFloat.finite 2] :=
  parameter_sweep_preserves_values "ode_solver" .y0
    [PyFloat.finite (mkRat 1 2), PyFloat.finite 1, PyFloat.finite 2] {}
    (fun _ => ⟨some 1, 0, "", ""⟩) _ (by rfl)

theorem sweepGo_error_of (exePath : String) (pname : ParamName)
    (base : SolveKwargs) (behaviors : Nat → BackendBehavior) (v : PyFloat)
    (post : List PyFloat) (e : SolveError) :
    ∀ (pre : List PyFloat) (idx : Nat),
      (∀ j (hj : j < pre.length),
        ∃ s, solveKw exePath (setParam base pname (pre.get ⟨j, hj⟩))
              (behaviors (idx + j)) = .ok s) →
      solveKw exePath (setParam base pname v) (behaviors (idx + pre.length)) =
        .error e →
      sweepGo exePath pname base behaviors (pre ++ v :: post) idx = .error e := by
  intro pre
  induction pre with
  | nil =>
    intro idx _ herr
    simp only [List.length_nil, Nat.add_zero] at herr
    rw [List.nil_append, sweepGo, herr]
  | cons p pre' ih =>
    intro idx hpre herr
    obtain ⟨s, hs⟩ := hpre 0 (by simp)
    simp only [List.get, Nat.add_zero] at hs
    rw [List.cons_append, sweepGo, hs]
    have hrec : sweepGo exePath pname base behaviors (pre' ++ v :: post) (idx + 1) =
        .error e := by
      apply ih
      · intro j hj
        have := hpre (j + 1) (by simpa using Nat.succ_lt_succ hj)
        simpa [Nat.add_assoc, Nat.add_comm 1 j] using this
      · have : idx + (p :: pre').length = idx + 1 + pre'.length := by
          simp [Nat.add_assoc, Nat.add_comm 1 pre'.length]
        rw [this] at herr
        exact herr
    rw [hrec]

/-- C6: if all solve calls before the i-th value succeed and the i-th
fails, the sweep propagates that failure (no partial result list), and
its outcome does not depend on the behaviour of any backend process past
the i-th — no solve call is performed for later values. -/
theorem sweep_aborts_on_first_failure (exePath : String) (pname : ParamName)
    (base : SolveKwargs) (behaviors behaviors' : Nat → BackendBehavior)
    (pre : List PyFloat) (v : PyFloat) (post : List PyFloat) (e : SolveError)
    (hpre : ∀ j (hj : j < pre.length),
      ∃ s, solveKw exePath (setParam base pname (pre.get ⟨j, hj⟩)) (behaviors j) =
            .ok s)
    (herr : solveKw exePath (setParam base pname v) (behaviors pre.length) =
      .error e)
    (hagree : ∀ j, j ≤ pre.length → behaviors' j = behaviors j) :
    parameter_sweep exePath pname (pre ++ v :: post) base behaviors' = .error e := by
  unfold parameter_sweep
  have := sweepGo_error_of exePath pname base behaviors' v post e pre 0 ?_ ?_
  · simpa using this
  · intro j hj
    rw [Nat.zero_add, hagree j (Nat.le_of_lt hj)]
    exact hpre j hj
  · rw [Nat.zero_add, hagree pre.length (Nat.le_refl _)]
    exact herr

theorem sweep_aborts_on_first_failure_witness :
    parameter_sweep "ode_solver" .y0 ([] ++ PyFloat.finite 1 :: [PyFloat.finite 2])
      {} (fun _ => ⟨none, 0, "", ""⟩) = .error .timeout :=
  sweep_aborts_on_first_failure "ode_solver" .y0 {} (fun _ => ⟨none, 0, "", ""⟩)
    (fun _ => ⟨none, 0, "", ""⟩) [] (PyFloat.finite 1) [PyFloat.finite 2] .timeout
    (fun j hj => absurd hj (by simp)) (by rfl) (fun _ _ => rfl)

/-- C10: the header-skip rule is a prefix match, not an equality match:
no surviving data line has stripped text beginning with `"t,y"`, and
e.g. `"t,yield"` and `"t,y,extra"` lines are dropped even though they
are not the exact header. -/
theorem header_skip_is_prefix_match :
    (∀ (stdout l : String), l ∈ dataLines stdout → headerLike l = false)
    ∧ parseStdout "t,yield\n1.0,2.0\n" = .ok ([.finite 1], [.finite 2])
    ∧ parseStdout "t,y,extra\n" = .ok ([], []) := by
  refine ⟨?_, by rfl, by rfl⟩
  intro stdout l hl
  unfold dataLines at hl
  rw [List.mem_filter] at hl
  have h2 := hl.2
  simp only [decide_eq_true_eq] at h2
  simpa using h2.2

theorem header_skip_is_prefix_match_witness :
    headerLike "1,2" = false :=
  header_skip_is_prefix_match.1 "1,2" "1,2" (by decide)

theorem except_map_error_iff {α β : Type} (f : α → β) (e : Except String α)
    (m : String) : e.map f = .error m ↔ e = .error m := by
  cases e <;> simp [Except.map]

theorem parseLines_cons_two (l : String) (ls : List String) (a b : String)
    (hsplit : pySplit ',' (pyStrip l) = [a, b]) :
    parseLines (l :: ls) =
      match pyFloat a with
      | none => .error ("could not convert string to float: " ++ a)
      | some t =>
        match pyFloat b with
        | none => .error ("could not convert string to float: " ++ b)
        | some y => (parseLines ls).map (fun p => (t :: p.1, y :: p.2)) := by
  rw [parseLines, hsplit]

theorem parseLines_cons_skip (l : String) (ls : List String)
    (h : (pySplit ',' (pyStrip l)).length ≠ 2) :
    parseLines (l :: ls) = parseLines ls := by
  rw [parseLines]
  split
  · rename_i a b heq
    rw [heq] at h
    exact absurd rfl h
  · rfl

/-- C2 is false as stated: a line that splits into exactly two fields,
one of which `float()` rejects, makes the whole solve call raise: on
backend stdout `"a,b"` the solve call fails with a RuntimeError instead
of discarding the line. -/
theorem parsing_raises_counterexample :
    parseStdout "a,b" = .error "could not convert string to float: a" ∧
      (solveRun "ode_solver" {} ⟨some 1, 0, "a,b", ""⟩).2 =
        .error (.runtime
          "Error running Fortran solver: could not convert string to float: a") :=
  ⟨by rfl, by rfl⟩

/-- C2 amended: lines that do not split into exactly two comma-separated
fields are silently discarded and never cause an error; parsing fails
exactly when some kept line splits into exactly two fields of which at
least one is not parseable as a float. -/
theorem parsing_error_characterisation :
    (∀ (pre : List String) (l : String) (post : List String),
        (pySplit ',' (pyStrip l)).length ≠ 2 →
        parseLines (pre ++ l :: post) = parseLines (pre ++ post))
    ∧ (∀ ls : List String,
        (∃ m, parseLines ls = .error m) ↔
          ∃ l ∈ ls, ∃ a b, pySplit ',' (pyStrip l) = [a, b] ∧
            (pyFloat a = none ∨ pyFloat b = none)) := by
  constructor
  · intro pre l post h
    induction pre with
    | nil => simpa using parseLines_cons_skip l post h
    | cons p pre' ih =>
      rw [List.cons_append, List.cons_append, parseLines]
      conv_rhs => rw [parseLines]
      rw [ih]
  · intro ls
    induction ls with
    | nil => simp [parseLines]
    | cons l rest ih =>
      constructor
      · rintro ⟨m, hm⟩
        rw [parseLines] at hm
        split at hm
        · rename_i a b heq
          split at hm
          · rename_i hfa
            exact ⟨l, by simp, a, b, heq, Or.inl hfa⟩
          · rename_i t hfa
            split at hm
            · rename_i hfb
              exact ⟨l, by simp, a, b, heq, Or.inr hfb⟩
            · rename_i y hfb
              rw [except_map_error_iff] at hm
              obtain ⟨l', hl', rest'⟩ := ih.mp ⟨m, hm⟩
              exact ⟨l', by simp [hl'], rest'⟩
        · obtain ⟨l', hl', rest'⟩ := ih.mp ⟨m, hm⟩
          exact ⟨l', by simp [hl'], rest'⟩
      · rintro ⟨l', hl', a, b, hsplit, hbad⟩
        rcases List.mem_cons.mp hl' with rfl | hmem
        · rw [parseLines_cons_two l' rest a b hsplit]
          rcases hbad with hfa | hfb
          · rw [hfa]
            exact ⟨_, rfl⟩
          · cases hfa : pyFloat a with
            | none => exact ⟨_, rfl⟩
            | some t =>
              rw [hfb]
              exact ⟨_, rfl⟩
        · have hrest := ih.mpr ⟨l', hmem, a, b, hsplit, hbad⟩
          obtain ⟨m, hm⟩ := hrest
          rw [parseLines]
          split
          · rename_i a' b' heq
            cases hfa : pyFloat a' with
            | none => exact ⟨_, rfl⟩
            | some t =>
              cases hfb : pyFloat b' with
              | none => exact ⟨_, rfl⟩
              | some y =>
                refine ⟨m, ?_⟩
                rw [hm]
                rfl
          · exact ⟨m, hm⟩

theorem parsing_error_characterisation_witness :
    parseLines (["0,1"] ++ "1,2,3" :: ["2,3"]) = parseLines (["0,1"] ++ ["2,3"]) :=
  parsing_error_characterisation.1 ["0,1"] "1,2,3" ["2,3"] (by decide)

theorem wellFormed_eq_some {l : String} {t y : PyFloat}
    (h : wellFormed l = some (t, y)) :
    ∃ a b, pySplit ',' (pyStrip l) = [a, b] ∧ pyFloat a = some t ∧
      pyFloat b = some y := by
  unfold wellFormed at h
  split at h
  · rename_i a b heq
    split at h
    · rename_i t' y' hfa hfb
      simp only [Option.some.injEq, Prod.mk.injEq] at h
      exact ⟨a, b, heq, by rw [hfa, h.1], by rw [hfb, h.2]⟩
    · exact absurd h (by simp)
  · exact absurd h (by simp)

theorem discarded_wellFormed_none {l : String} (h : discarded l = true) :
    wellFormed l = none := by
  unfold discarded at h
  unfold wellFormed
  split
  · rename_i a b heq
    rw [heq] at h
    simp at h
  · rfl

theorem parseLines_of_classified :
    ∀ ls : List String, (∀ l ∈ ls, (wellFormed l).isSome ∨ discarded l = true) →
      parseLines ls = .ok ((ls.filterMap wellFormed).map Prod.fst,
        (ls.filterMap wellFormed).map Prod.snd) := by
  intro ls
  induction ls with
  | nil => intro _; rfl
  | cons l rest ih =>
    intro h
    have hrest := ih (fun l' hl' => h l' (by simp [hl']))
    rcases h l (by simp) with hw | hd
    · obtain ⟨⟨t, y⟩, hw⟩ := Option.isSome_iff_exists.mp hw
      obtain ⟨a, b, hsplit, hfa, hfb⟩ := wellFormed_eq_some hw
      rw [parseLines_cons_two l rest a b hsplit, hfa, hfb, hrest]
      simp [List.filterMap_cons, hw, Except.map]
    · have hnone := discarded_wellFormed_none hd
      rw [parseLines_cons_skip l rest (by simpa [discarded] using hd)]
      rw [hrest]
      simp [List.filterMap_cons, hnone]

/-- C3 is false as stated: with `K = 0` well-formed lines and the single
malformed line `"1.0,abc"` after the header, parsing does not yield a
length-0 series — the solve call fails with a RuntimeError. -/
theorem parse_length_counterexample :
    parseStdout "t,y\n1.0,abc\n" = .error "could not convert string to float: abc" ∧
      (solveRun "ode_solver" {} ⟨some 1, 0, "t,y\n1.0,abc\n", ""⟩).2 =
        .error (.runtime
          "Error running Fortran solver: could not convert string to float: abc") :=
  ⟨by rfl, by rfl⟩

/-- C3 amended: when every data line is either well-formed
(`float,float`) or fails to split into exactly two comma-separated
fields, parsing yields exactly the well-formed pairs in order (length
K); the claim's concrete example holds.  (A malformed line with exactly
two fields instead aborts the call, see the counterexample.) -/
theorem parse_yields_wellformed_lines :
    (∀ ls : List String, (∀ l ∈ ls, (wellFormed l).isSome ∨ discarded l = true) →
      parseLines ls = .ok ((ls.filterMap wellFormed).map Prod.fst,
        (ls.filterMap wellFormed).map Prod.snd))
    ∧ parseStdout "t,y\n0.000000,1.000000\n1.000000,0.606531\n" =
        .ok ([.finite 0, .finite 1], [.finite 1, .finite (mkRat 606531 1000000)]) :=
  ⟨parseLines_of_classified, by rfl⟩

theorem parse_yields_wellformed_lines_witness :
    parseLines ["1,2", "x"] =
      .ok (((["1,2", "x"].filterMap wellFormed).map Prod.fst),
        ((["1,2", "x"].filterMap wellFormed).map Prod.snd)) :=
  parse_yields_wellformed_lines.1 ["1,2", "x"] (by decide)

theorem isDigit_toNat {c : Char} (h : isDigitChar c = true) :
    48 ≤ c.toNat ∧ c.toNat ≤ 57 := by
  simpa [isDigitChar] using h

theorem space_toNat_lt {c : Char} (h : isPySpace c = true) : c.toNat < 48 := by
  simp only [isPySpace, decide_eq_true_eq] at h
  rcases h with rfl | rfl | rfl | rfl | rfl | rfl <;> decide

theorem digit_not_space {c : Char} (h : isDigitChar c = true) :
    isPySpace c = false := by
  cases hsp : isPySpace c with
  | false => rfl
  | true =>
    have h1 := space_toNat_lt hsp
    have h2 := isDigit_toNat h
    omega

theorem digit_ne {c d : Char} (h : isDigitChar c = true)
    (hd : d.toNat < 48 ∨ 57 < d.toNat) : c ≠ d := by
  intro heq
  have h2 := isDigit_toNat h
  rw [heq] at h2
  omega

theorem dropWhile_eq_self_of_all {p : Char → Bool} {l : List Char}
    (h : ∀ c ∈ l, p c = false) : l.dropWhile p = l := by
  cases l with
  | nil => rfl
  | cons a l' => simp [List.dropWhile_cons, h a (by simp)]

theorem dropWhile_append_all {p : Char → Bool} {A B : List Char}
    (h : ∀ c ∈ A, p c = true) : (A ++ B).dropWhile p = B.dropWhile p := by
  induction A with
  | nil => rfl
  | cons a A' ih =>
    rw [List.cons_append, List.dropWhile_cons, if_pos (h a (by simp))]
    exact ih (fun c hc => h c (by simp [hc]))

theorem pyStripL_eq_self {l : List Char} (h : ∀ c ∈ l, isPySpace c = false) :
    pyStripL l = l := by
  unfold pyStripL
  rw [dropWhile_eq_self_of_all h]
  rw [dropWhile_eq_self_of_all (fun c hc => h c (List.mem_reverse.mp hc))]
  exact List.reverse_reverse l

theorem pyStripL_wrap (u : Char) (M : List Char) (v : Char) (S : List Char)
    (hu : isPySpace u = false) (hv : isPySpace v = false)
    (hS : ∀ c ∈ S, isPySpace c = true) :
    pyStripL (u :: (M ++ [v] ++ S)) = u :: (M ++ [v]) := by
  unfold pyStripL
  rw [List.dropWhile_cons, if_neg (by simp [hu])]
  rw [show (u :: (M ++ [v] ++ S)).reverse =
      S.reverse ++ v :: (M.reverse ++ [u]) by simp]
  rw [dropWhile_append_all (fun c hc => hS c (List.mem_reverse.mp hc))]
  rw [List.dropWhile_cons, if_neg (by simp [hv])]
  simp

theorem pySplitL_no_sep {sep : Char} {l : List Char} (h : ∀ c ∈ l, c ≠ sep) :
    pySplitL sep l = [l] := by
  induction l with
  | nil => rfl
  | cons c l' ih =>
    rw [pySplitL, if_neg (h c (by simp)), ih (fun c hc => h c (by simp [hc]))]

theorem pySplitL_append {sep : Char} {A B : List Char} (h : ∀ c ∈ A, c ≠ sep) :
    pySplitL sep (A ++ sep :: B) = A :: pySplitL sep B := by
  induction A with
  | nil =>
    rw [List.nil_append, pySplitL, if_pos rfl]
  | cons a A' ih =>
    rw [List.cons_append, pySplitL, if_neg (h a (by simp)),
      ih (fun c hc => h c (by simp [hc]))]

theorem digitsTail_cons_digit {c : Char} (hne : c ≠ '_')
    (hdig : isDigitChar c = true) (l : List Char) :
    digitsTail (c :: l) = (digitsTail l).map (fun ds => c :: ds) := by
  conv_lhs => rw [digitsTail.eq_def]
  simp [hne, hdig]

theorem digitsTail_all_digits {l : List Char} (h : ∀ c ∈ l, isDigitChar c = true) :
    digitsTail l = some l := by
  induction l with
  | nil => rfl
  | cons c l' ih =>
    have hc := h c (by simp)
    rw [digitsTail_cons_digit (digit_ne hc (by decide)) hc,
      ih (fun c hc2 => h c (by simp [hc2]))]
    rfl

theorem digitsPart_all_digits {l : List Char} (h : ∀ c ∈ l, isDigitChar c = true) :
    digitsPart l = some l := by
  cases l with
  | nil => rfl
  | cons c l' =>
    rw [digitsPart, if_neg (digit_ne (h c (by simp)) (by decide))]
    exact digitsTail_all_digits h

theorem natDigitsAux_eq : ∀ (fuel n : Nat), n ≤ fuel →
    natDigitsAux fuel n = Nat.digits 10 n := by
  intro fuel
  induction fuel with
  | zero =>
    intro n h
    have hn : n = 0 := by omega
    subst hn
    simp [natDigitsAux]
  | succ fuel ih =>
    intro n h
    by_cases hn : n = 0
    · subst hn; simp [natDigitsAux]
    · rw [natDigitsAux, if_neg hn,
        ih (n / 10) (by
          have := Nat.div_lt_self (Nat.pos_of_ne_zero hn) (by norm_num : 1 < 10)
          omega),
        Nat.digits_def' (by norm_num : 1 < 10) (Nat.pos_of_ne_zero hn)]

theorem natDigits_eq (n : Nat) : natDigits n = Nat.digits 10 n :=
  natDigitsAux_eq n n (Nat.le_refl n)

theorem natLogAux_eq {b : Nat} (hb : 1 < b) : ∀ (fuel n : Nat), n ≤ fuel →
    natLogAux b fuel n = Nat.log b n := by
  intro fuel
  induction fuel with
  | zero =>
    intro n h
    have hn : n = 0 := by omega
    subst hn
    simp [natLogAux]
  | succ fuel ih =>
    intro n h
    by_cases hc : 1 < b ∧ b ≤ n
    · rw [natLogAux, if_pos hc,
        ih (n / b) (by
          have := Nat.div_lt_self (by omega : 0 < n) hb
          omega),
        ← Nat.log_of_one_lt_of_le hb hc.2]
    · rw [natLogAux, if_neg hc]
      have hbn : n < b := by
        rcases not_and_or.mp hc with h1 | h2
        · exact absurd hb h1
        · omega
      exact (Nat.log_eq_zero_iff.mpr (Or.inl hbn)).symm

theorem natLog_eq {b : Nat} (hb : 1 < b) (n : Nat) : natLog b n = Nat.log b n :=
  natLogAux_eq hb n n (Nat.le_refl n)

theorem char_ofNat_toNat48 {d : Nat} (h : d < 10) :
    (Char.ofNat (d + 48)).toNat = d + 48 := by
  interval_cases d <;> rfl

theorem isDigitChar_ofNat48 {d : Nat} (h : d < 10) :
    isDigitChar (Char.ofNat (d + 48)) = true := by
  interval_cases d <;> rfl

theorem natDigitChars_digits {n : Nat} : ∀ c ∈ natDigitChars n,
    isDigitChar c = true := by
  intro c hc
  unfold natDigitChars at hc
  rw [List.mem_reverse, List.mem_map] at hc
  obtain ⟨d, hd, rfl⟩ := hc
  rw [natDigits_eq] at hd
  exact isDigitChar_ofNat48 (Nat.digits_lt_base (by norm_num) hd)

theorem natStr_digits {n : Nat} : ∀ c ∈ natStr n, isDigitChar c = true := by
  intro c hc
  unfold natStr at hc
  split at hc
  · simp only [List.mem_singleton] at hc
    subst hc
    decide
  · exact natDigitChars_digits c hc

theorem natStr_ne_nil (n : Nat) : natStr n ≠ [] := by
  unfold natStr
  split
  · simp
  · rename_i hn
    unfold natDigitChars
    rw [natDigits_eq]
    simp [Nat.digits_ne_nil_iff_ne_zero.mpr hn]

theorem foldl_digit_chars (ds : List Nat) (hds : ∀ d ∈ ds, d < 10) :
    ∀ acc, List.foldl (fun a c => a * 10 + (c.toNat - 48)) acc
        ((ds.map (fun d => Char.ofNat (d + 48))).reverse) =
      acc * 10 ^ ds.length + Nat.ofDigits 10 ds := by
  induction ds with
  | nil => intro acc; simp
  | cons d ds' ih =>
    intro acc
    rw [List.map_cons, List.reverse_cons, List.foldl_append]
    rw [ih (fun x hx => hds x (by simp [hx])) acc]
    simp only [List.foldl_cons, List.foldl_nil]
    rw [char_ofNat_toNat48 (hds d (by simp)), Nat.ofDigits_cons]
    have hd48 : d + 48 - 48 = d := by omega
    rw [hd48, List.length_cons, pow_succ]
    ring

theorem digitsVal_natDigitChars (n : Nat) : digitsVal (natDigitChars n) = n := by
  unfold digitsVal natDigitChars
  rw [foldl_digit_chars _ (fun d hd => by
    rw [natDigits_eq] at hd
    exact Nat.digits_lt_base (by norm_num) hd) 0]
  rw [natDigits_eq, Nat.ofDigits_digits]
  simp

theorem digitsVal_natStr (n : Nat) : digitsVal (natStr n) = n := by
  unfold natStr
  split
  · rename_i h; rw [h]; rfl
  · exact digitsVal_natDigitChars n

theorem digitsVal_replicate_zero (z : Nat) (l : List Char) :
    digitsVal (List.replicate z '0' ++ l) = digitsVal l := by
  unfold digitsVal
  rw [List.foldl_append]
  have : List.foldl (fun a c => a * 10 + (c.toNat - 48)) 0
      (List.replicate z '0') = 0 := by
    induction z with
    | zero => rfl
    | succ z' ih => rw [List.replicate_succ, List.foldl_cons]; exact ih
  rw [this]

theorem natDigitChars_len_le {fp k : Nat} (h : fp < 10 ^ k) :
    (natDigitChars fp).length ≤ k := by
  unfold natDigitChars
  rw [natDigits_eq]
  simp only [List.length_reverse, List.length_map]
  by_cases hfp : fp = 0
  · subst hfp; simp
  · rw [Nat.digits_len 10 fp (by norm_num) hfp]
    have := (Nat.lt_pow_iff_log_lt (by norm_num : 1 < 10) hfp).mp h
    omega

theorem takeWhile_all {p : Char → Bool} {l : List Char}
    (h : ∀ c ∈ l, p c = true) : l.takeWhile p = l := by
  induction l with
  | nil => rfl
  | cons a l' ih =>
    rw [List.takeWhile_cons, if_pos (h a (by simp)),
      ih (fun c hc => h c (by simp [hc]))]

theorem dropWhile_all {p : Char → Bool} {l : List Char}
    (h : ∀ c ∈ l, p c = true) : l.dropWhile p = [] := by
  induction l with
  | nil => rfl
  | cons a l' ih =>
    rw [List.dropWhile_cons, if_pos (h a (by simp))]
    exact ih (fun c hc => h c (by simp [hc]))

theorem takeWhile_append_stop {p : Char → Bool} {A B : List Char} {m : Char}
    (hA : ∀ c ∈ A, p c = true) (hm : p m = false) :
    (A ++ m :: B).takeWhile p = A := by
  induction A with
  | nil => rw [List.nil_append, List.takeWhile_cons, if_neg (by simp [hm])]
  | cons a A' ih =>
    rw [List.cons_append, List.takeWhile_cons, if_pos (hA a (by simp)),
      ih (fun c hc => hA c (by simp [hc]))]

theorem dropWhile_append_stop {p : Char → Bool} {A B : List Char} {m : Char}
    (hA : ∀ c ∈ A, p c = true) (hm : p m = false) :
    (A ++ m :: B).dropWhile p = m :: B := by
  induction A with
  | nil => rw [List.nil_append, List.dropWhile_cons, if_neg (by simp [hm])]
  | cons a A' ih =>
    rw [List.cons_append, List.dropWhile_cons, if_pos (hA a (by simp))]
    exact ih (fun c hc => hA c (by simp [hc]))

theorem splitFirst_none {m1 m2 : Char} {l : List Char}
    (h : ∀ c ∈ l, ¬(c = m1 ∨ c = m2)) : splitFirst m1 m2 l = (l, none) := by
  unfold splitFirst
  rw [takeWhile_all (fun c hc => by simpa using h c hc),
    dropWhile_all (fun c hc => by simpa using h c hc)]

theorem splitFirst_found {m1 m2 : Char} {A B : List Char}
    (h : ∀ c ∈ A, ¬(c = m1 ∨ c = m2)) :
    splitFirst m1 m2 (A ++ m1 :: B) = (A, some B) := by
  unfold splitFirst
  rw [takeWhile_append_stop (fun c hc => by simpa using h c hc) (by simp),
    dropWhile_append_stop (fun c hc => by simpa using h c hc) (by simp)]

theorem ne_of_mem_not_mem {α : Type} {x : α} {l1 l2 : List α}
    (h1 : x ∈ l1) (h2 : x ∉ l2) : l1 ≠ l2 :=
  fun he => h2 (he ▸ h1)

theorem mkDecNat_chars {a k : Nat} :
    ∀ c ∈ mkDecNat a k, c = '.' ∨ isDigitChar c = true := by
  intro c hc
  unfold mkDecNat at hc
  split at hc
  · rcases List.mem_append.mp hc with hc | hc
    · exact Or.inr (natStr_digits c hc)
    · have h2 : c = '.' ∨ c = '0' := by simpa using hc
      rcases h2 with rfl | rfl
      · exact Or.inl rfl
      · exact Or.inr (by decide)
  · rcases List.mem_append.mp hc with h1 | h2
    · rcases List.mem_append.mp h1 with h3 | h4
      · rcases List.mem_append.mp h3 with h5 | h6
        · exact Or.inr (natStr_digits c h5)
        · exact Or.inl (List.mem_singleton.mp h6)
      · exact Or.inr ((List.eq_of_mem_replicate h4) ▸ by decide)
    · exact Or.inr (natDigitChars_digits c h2)

theorem mkDecNat_not_space {a k : Nat} :
    ∀ c ∈ mkDecNat a k, isPySpace c = false := by
  intro c hc
  rcases mkDecNat_chars c hc with rfl | hd
  · decide
  · exact digit_not_space hd

theorem mkDecNat_shape (a k : Nat) :
    ∃ c cs, mkDecNat a k = c :: cs ∧ isDigitChar c = true := by
  unfold mkDecNat
  split
  · cases hns : natStr a with
    | nil => exact absurd hns (natStr_ne_nil a)
    | cons c cs =>
      exact ⟨c, cs ++ ['.', '0'], by simp,
        natStr_digits c (by rw [hns]; simp)⟩
  · cases hns : natStr (a / 10 ^ k) with
    | nil => exact absurd hns (natStr_ne_nil _)
    | cons c cs =>
      refine ⟨c, cs ++ ['.'] ++
        List.replicate (k - (natDigitChars (a % 10 ^ k)).length) '0' ++
          natDigitChars (a % 10 ^ k), by simp, ?_⟩
      exact natStr_digits c (by rw [hns]; simp)

theorem parseDecimal_mkDecNat (a k : Nat) :
    parseDecimal (mkDecNat a k) = some (mkRat a (10 ^ k)) := by
  have hnotE : ∀ c ∈ mkDecNat a k, ¬(c = 'e' ∨ c = 'E') := by
    intro c hc
    rcases mkDecNat_chars c hc with rfl | hd
    · decide
    · rintro (rfl | rfl) <;> revert hd <;> decide
  unfold parseDecimal
  rw [splitFirst_none hnotE]
  by_cases hk : k = 0
  · subst hk
    have hL : mkDecNat a 0 = natStr a ++ '.' :: ['0'] := by
      unfold mkDecNat; rfl
    have hdot : splitFirst '.' '.' (mkDecNat a 0) = (natStr a, some ['0']) := by
      rw [hL]
      exact splitFirst_found (fun c hc => by
        have hd := natStr_digits c hc
        rintro (rfl | rfl) <;> revert hd <;> decide)
    simp only [hdot, Option.getD_some,
      digitsPart_all_digits natStr_digits,
      digitsPart_all_digits (l := ['0']) (by intro c hc; simp at hc; subst hc; decide)]
    rw [if_neg (by simp [List.isEmpty_iff, natStr_ne_nil a])]
    simp only [List.length_singleton]
    have hv0 : digitsVal ['0'] = 0 := rfl
    rw [digitsVal_natStr, hv0]
    norm_num
    rw [Rat.mkRat_eq_div]
    push_cast
    rw [mul_comm, mul_div_assoc]
    norm_num
    rw [mul_comm, div_mul_cancel₀ _ (by norm_num : (10 : ℚ) ≠ 0)]
  · have hfp : a % 10 ^ k < 10 ^ k := Nat.mod_lt a (Nat.pos_pow_of_pos k (by norm_num))
    have hlen : (natDigitChars (a % 10 ^ k)).length ≤ k := natDigitChars_len_le hfp
    have hL : mkDecNat a k = natStr (a / 10 ^ k) ++ '.' ::
        (List.replicate (k - (natDigitChars (a % 10 ^ k)).length) '0' ++
          natDigitChars (a % 10 ^ k)) := by
      unfold mkDecNat
      rw [if_neg hk]
      simp
    have hdot : splitFirst '.' '.' (mkDecNat a k) = (natStr (a / 10 ^ k),
        some (List.replicate (k - (natDigitChars (a % 10 ^ k)).length) '0' ++
          natDigitChars (a % 10 ^ k))) := by
      rw [hL]
      exact splitFirst_found (fun c hc => by
        have hd := natStr_digits c hc
        rintro (rfl | rfl) <;> revert hd <;> decide)
    have hfracD : ∀ c ∈ List.replicate (k - (natDigitChars (a % 10 ^ k)).length) '0' ++
        natDigitChars (a % 10 ^ k), isDigitChar c = true := by
      intro c hc
      rw [List.mem_append] at hc
      rcases hc with hc | hc
      · rw [List.mem_replicate] at hc
        rw [hc.2]; decide
      · exact natDigitChars_digits c hc
    simp only [hdot, Option.getD_some,
      digitsPart_all_digits natStr_digits, digitsPart_all_digits hfracD]
    rw [if_neg (by simp [List.isEmpty_iff, natStr_ne_nil _])]
    rw [digitsVal_replicate_zero, digitsVal_natStr, digitsVal_natDigitChars]
    have hlen2 : (List.replicate (k - (natDigitChars (a % 10 ^ k)).length) '0' ++
        natDigitChars (a % 10 ^ k)).length = k := by
      simp only [List.length_append, List.length_replicate]
      omega
    rw [hlen2]
    have hmant : a / 10 ^ k * 10 ^ k + a % 10 ^ k = a := by
      rw [Nat.mul_comm (a / 10 ^ k) (10 ^ k)]
      exact Nat.div_add_mod a (10 ^ k)
    rw [hmant]
    norm_num

theorem mkDecNat_mem_dot (a k : Nat) : '.' ∈ mkDecNat a k := by
  unfold mkDecNat
  split <;> simp

theorem pyFloatCore_mkDecNat (a k : Nat) (neg : Bool) :
    pyFloatCore (mkDecNat a k) neg =
      some (.finite (if neg then -(mkRat a (10 ^ k)) else mkRat a (10 ^ k))) := by
  unfold pyFloatCore
  have hdot : '.' ∈ (mkDecNat a k).map Char.toLower :=
    List.mem_map.mpr ⟨'.', mkDecNat_mem_dot a k, rfl⟩
  rw [if_neg, if_neg]
  · rw [parseDecimal_mkDecNat]
    rfl
  · exact ne_of_mem_not_mem hdot (by decide)
  · rintro (h | h)
    · exact ne_of_mem_not_mem hdot (by decide) h
    · exact ne_of_mem_not_mem hdot (by decide) h

theorem mkDec_not_space {m : Int} {k : Nat} :
    ∀ c ∈ mkDec m k, isPySpace c = false := by
  intro c hc
  unfold mkDec at hc
  rcases List.mem_append.mp hc with h1 | h2
  · split at h1
    · have : c = '-' := by simpa using h1
      subst this
      decide
    · exact absurd h1 (by simp)
  · exact mkDecNat_not_space c h2

theorem pyFloat_mkDec (m : Int) (k : Nat) :
    pyFloat ⟨mkDec m k⟩ = some (.finite (mkRat m (10 ^ k))) := by
  have hstrip : pyStripL (String.toList ⟨mkDec m k⟩) = mkDec m k :=
    pyStripL_eq_self mkDec_not_space
  by_cases hm : m < 0
  · have hcons : mkDec m k = '-' :: mkDecNat m.natAbs k := by
      unfold mkDec
      rw [if_pos hm]
      rfl
    rw [pyFloat, hstrip, hcons]
    rw [show (match ('-' :: mkDecNat m.natAbs k : List Char) with
      | [] => pyFloatCore [] false
      | c :: rest =>
        if c = '+' then pyFloatCore rest false
        else if c = '-' then pyFloatCore rest true
        else pyFloatCore (c :: rest) false) =
        pyFloatCore (mkDecNat m.natAbs k) true by rfl]
    rw [pyFloatCore_mkDecNat]
    have habs : ((m.natAbs : Int)) = -m := by omega
    rw [if_pos rfl, Rat.neg_mkRat, habs]
    norm_num
  · have hcons : mkDec m k = mkDecNat m.natAbs k := by
      unfold mkDec
      rw [if_neg hm]
      rfl
    obtain ⟨c, cs, hshape, hcdig⟩ := mkDecNat_shape m.natAbs k
    rw [pyFloat, hstrip, hcons, hshape]
    rw [show (match (c :: cs : List Char) with
      | [] => pyFloatCore [] false
      | c :: rest =>
        if c = '+' then pyFloatCore rest false
        else if c = '-' then pyFloatCore rest true
        else pyFloatCore (c :: rest) false) =
        (if c = '+' then pyFloatCore cs false
         else if c = '-' then pyFloatCore cs true
         else pyFloatCore (c :: cs) false) by rfl]
    rw [if_neg (digit_ne hcdig (by decide)), if_neg (digit_ne hcdig (by decide)),
      ← hshape, pyFloatCore_mkDecNat]
    have habs : ((m.natAbs : Int)) = m := by omega
    rw [if_neg (by simp), habs]

theorem dvd_pow_decExp {d : Nat} (hd0 : d ≠ 0) {j : Nat} (hd : d ∣ 10 ^ j) :
    d ∣ 10 ^ decExp d := by
  have h10 : (10 : Nat) ^ j = 2 ^ j * 5 ^ j := by rw [← Nat.mul_pow]
  rw [h10] at hd
  have hcop : Nat.Coprime (2 ^ j) (5 ^ j) := Nat.Coprime.pow j j (by decide)
  have hgcd : d = Nat.gcd d (2 ^ j) * Nat.gcd d (5 ^ j) := by
    rw [← Nat.Coprime.gcd_mul d hcop]
    exact (Nat.gcd_eq_left hd).symm
  obtain ⟨u, hu, hu2⟩ := (Nat.dvd_prime_pow Nat.prime_two).mp
    (Nat.gcd_dvd_right d (2 ^ j))
  obtain ⟨v, hv, hv2⟩ := (Nat.dvd_prime_pow Nat.prime_five).mp
    (Nat.gcd_dvd_right d (5 ^ j))
  have h2d : 2 ^ u ∣ d := hu2 ▸ Nat.gcd_dvd_left d (2 ^ j)
  have h5d : 5 ^ v ∣ d := hv2 ▸ Nat.gcd_dvd_left d (5 ^ j)
  have hu_le : u ≤ Nat.log 2 d := (Nat.pow_le_iff_le_log (by norm_num) hd0).mp
    (Nat.le_of_dvd (Nat.pos_of_ne_zero hd0) h2d)
  have hv_le : v ≤ Nat.log 5 d := (Nat.pow_le_iff_le_log (by norm_num) hd0).mp
    (Nat.le_of_dvd (Nat.pos_of_ne_zero hd0) h5d)
  have hK : decExp d = max (Nat.log 2 d) (Nat.log 5 d) := by
    unfold decExp
    rw [natLog_eq (by norm_num) d, natLog_eq (by norm_num) d]
  have h10K : (10 : Nat) ^ decExp d =
      2 ^ decExp d * 5 ^ decExp d := by rw [← Nat.mul_pow]
  rw [h10K]
  conv_lhs => rw [hgcd, hu2, hv2]
  exact Nat.mul_dvd_mul
    (Nat.pow_dvd_pow 2 (le_trans hu_le (hK ▸ le_max_left _ _)))
    (Nat.pow_dvd_pow 5 (le_trans hv_le (hK ▸ le_max_right _ _)))

theorem pyRepr_roundtrip_finite {q : Rat} (h : ∃ j, q.den ∣ 10 ^ j) :
    pyFloat (pyRepr (.finite q)) = some (.finite q) := by
  obtain ⟨j, hj⟩ := h
  have hden0 : q.den ≠ 0 := q.den_nz
  have hdvd : q.den ∣ 10 ^ decExp q.den := dvd_pow_decExp hden0 hj
  rw [show pyRepr (.finite q) =
      ⟨mkDec (q.num * ((10 ^ decExp q.den / q.den : Nat) : Int)) (decExp q.den)⟩
    from rfl]
  rw [pyFloat_mkDec]
  set D : Nat := 10 ^ decExp q.den / q.den with hD
  have hDden : D * q.den = 10 ^ decExp q.den := Nat.div_mul_cancel hdvd
  have hD0 : D ≠ 0 := by
    intro h0
    rw [h0, Nat.zero_mul] at hDden
    exact absurd hDden.symm
      (Nat.pos_iff_ne_zero.mp (Nat.pos_pow_of_pos _ (by norm_num)))
  rw [show (10 : Nat) ^ decExp q.den = D * q.den from hDden.symm]
  rw [show q.num * (D : Int) = (D : Int) * q.num by ring]
  rw [Rat.mkRat_mul_left hD0, Rat.mkRat_self]

theorem parseDecimal_den {l : List Char} {q : Rat}
    (h : parseDecimal l = some q) : ∃ j, q.den ∣ 10 ^ j := by
  unfold parseDecimal at h
  dsimp only at h
  split at h
  · exact absurd h (by simp)
  · rename_i e he
    split at h
    · split at h
      · exact absurd h (by simp)
      · rename_i intDs fracDs heq1 heq2 hne
        simp only [Option.some.injEq] at h
        refine ⟨fracDs.length + (-e).toNat, ?_⟩
        rw [← h, Rat.mkRat_eq_divInt]
        exact Int.natCast_dvd_natCast.mp (Rat.den_dvd _ _)
    · exact absurd h (by simp)

theorem pyFloatCore_finite_den {l : List Char} {neg : Bool} {q : Rat}
    (h : pyFloatCore l neg = some (.finite q)) : ∃ j, q.den ∣ 10 ^ j := by
  unfold pyFloatCore at h
  dsimp only at h
  split at h
  · simp at h
  · split at h
    · simp at h
    · cases hp : parseDecimal l with
      | none => rw [hp] at h; simp at h
      | some q' =>
        rw [hp] at h
        obtain ⟨j, hj⟩ := parseDecimal_den hp
        refine ⟨j, ?_⟩
        cases neg with
        | false =>
          have h2 : q' = q := by simpa using h
          rw [← h2]
          exact hj
        | true =>
          have h2 : -q' = q := by simpa using h
          rw [← h2, Rat.neg_den]
          exact hj

theorem pyFloat_finite_den {s : String} {q : Rat}
    (h : pyFloat s = some (.finite q)) : ∃ j, q.den ∣ 10 ^ j := by
  unfold pyFloat at h
  split at h
  · exact pyFloatCore_finite_den h
  · split_ifs at h <;> exact pyFloatCore_finite_den h

/-- The values a successful `float()` call can produce round-trip
through `repr`. -/
theorem reprSafe_of_parsed {s : String} {x : PyFloat}
    (h : pyFloat s = some x) : pyFloat (pyRepr x) = some x := by
  cases x with
  | finite q => exact pyRepr_roundtrip_finite (pyFloat_finite_den h)
  | inf b => cases b <;> rfl
  | nan => rfl


theorem exists_snoc_of_ne_nil {l : List Char} (h : l ≠ []) :
    ∃ c cs, l = cs ++ [c] ∧ c ∈ l := by
  cases hr : l.reverse with
  | nil => rw [List.reverse_eq_nil_iff] at hr; exact absurd hr h
  | cons c cs =>
    have hl : l = cs.reverse ++ [c] := by
      have h2 := congrArg List.reverse hr
      rw [List.reverse_reverse] at h2
      rw [h2]
      simp
    exact ⟨c, cs.reverse, hl, by rw [hl]; simp⟩

theorem pyRepr_chars {x : PyFloat} : ∀ c ∈ (pyRepr x).data,
    c = '-' ∨ c = '.' ∨ c = 'i' ∨ c = 'n' ∨ c = 'f' ∨ c = 'a' ∨
      isDigitChar c = true := by
  intro c hc
  cases x with
  | nan =>
    have hd : ("nan" : String).data = ['n', 'a', 'n'] := rfl
    rw [show pyRepr .nan = "nan" from rfl, hd] at hc
    have h2 : c = 'n' ∨ c = 'a' ∨ c = 'n' := by simpa using hc
    rcases h2 with rfl | rfl | rfl <;> simp
  | inf b =>
    cases b with
    | true =>
      rw [show pyRepr (.inf true) = "-inf" from rfl,
        show ("-inf" : String).data = ['-', 'i', 'n', 'f'] from rfl] at hc
      have h2 : c = '-' ∨ c = 'i' ∨ c = 'n' ∨ c = 'f' := by simpa using hc
      rcases h2 with rfl | rfl | rfl | rfl <;> simp
    | false =>
      rw [show pyRepr (.inf false) = "inf" from rfl,
        show ("inf" : String).data = ['i', 'n', 'f'] from rfl] at hc
      have h2 : c = 'i' ∨ c = 'n' ∨ c = 'f' := by simpa using hc
      rcases h2 with rfl | rfl | rfl <;> simp
  | finite q =>
    rw [show (pyRepr (.finite q)).data =
        mkDec (q.num * ((10 ^ decExp q.den / q.den : Nat) : Int)) (decExp q.den)
      from rfl] at hc
    unfold mkDec at hc
    rcases List.mem_append.mp hc with h1 | h2
    · split at h1
      · have h3 : c = '-' := by simpa using h1
        subst h3; simp
      · exact absurd h1 (by simp)
    · rcases mkDecNat_chars c h2 with rfl | hd
      · simp
      · simp [hd]

theorem pyRepr_not_space {x : PyFloat} : ∀ c ∈ (pyRepr x).data,
    isPySpace c = false := by
  intro c hc
  rcases pyRepr_chars c hc with rfl | rfl | rfl | rfl | rfl | rfl | hd
  · decide
  · decide
  · decide
  · decide
  · decide
  · decide
  · exact digit_not_space hd

theorem pyRepr_ne_special {x : PyFloat} : ∀ c ∈ (pyRepr x).data,
    c ≠ ',' ∧ c ≠ '\n' ∧ c ≠ 't' := by
  intro c hc
  rcases pyRepr_chars c hc with rfl | rfl | rfl | rfl | rfl | rfl | hd
  · exact ⟨by decide, by decide, by decide⟩
  · exact ⟨by decide, by decide, by decide⟩
  · exact ⟨by decide, by decide, by decide⟩
  · exact ⟨by decide, by decide, by decide⟩
  · exact ⟨by decide, by decide, by decide⟩
  · exact ⟨by decide, by decide, by decide⟩
  · exact ⟨digit_ne hd (by decide), digit_ne hd (by decide),
      digit_ne hd (by decide)⟩

theorem mkDec_ne_nil (m : Int) (k : Nat) : mkDec m k ≠ [] := by
  obtain ⟨c, cs, hs, _⟩ := mkDecNat_shape m.natAbs k
  unfold mkDec
  split
  · simp
  · rw [List.nil_append, hs]
    simp

theorem pyRepr_ne_nil {x : PyFloat} : (pyRepr x).data ≠ [] := by
  cases x with
  | nan => simp [pyRepr]
  | inf b => cases b <;> simp [pyRepr]
  | finite q => exact mkDec_ne_nil _ _

theorem rowChars_not_space {p : PyFloat × PyFloat} :
    ∀ c ∈ rowChars p, isPySpace c = false := by
  intro c hc
  unfold rowChars at hc
  rcases List.mem_append.mp hc with h1 | h2
  · exact pyRepr_not_space c h1
  · rcases List.mem_cons.mp h2 with rfl | h3
    · decide
    · exact pyRepr_not_space c h3

theorem rowChars_no_nl {p : PyFloat × PyFloat} :
    ∀ c ∈ rowChars p, c ≠ '\n' := by
  intro c hc
  unfold rowChars at hc
  rcases List.mem_append.mp hc with h1 | h2
  · exact (pyRepr_ne_special c h1).2.1
  · rcases List.mem_cons.mp h2 with rfl | h3
    · decide
    · exact (pyRepr_ne_special c h3).2.1

theorem rowChars_ne_nil {p : PyFloat × PyFloat} : rowChars p ≠ [] := by
  unfold rowChars
  simp

theorem rowChars_head_ne_t (p : PyFloat × PyFloat) :
    ∃ c cs, rowChars p = c :: cs ∧ c ≠ 't' := by
  cases hr : (pyRepr p.1).data with
  | nil => exact absurd hr pyRepr_ne_nil
  | cons c cs =>
    refine ⟨c, cs ++ ',' :: (pyRepr p.2).data, by unfold rowChars; rw [hr]; rfl, ?_⟩
    exact (pyRepr_ne_special c (by rw [hr]; simp)).2.2

theorem csvLine_data (t y : PyFloat) :
    (csvLine t y).data = rowChars (t, y) ++ ['\r', '\n'] := by
  unfold csvLine rowChars
  rw [String.data_append, String.data_append, String.data_append]
  simp

theorem writeRows_data : ∀ (P : List (PyFloat × PyFloat)), P ≠ [] →
    (writeRows P).data = bodyCore P ++ ['\r', '\n'] := by
  intro P
  induction P with
  | nil => intro h; exact absurd rfl h
  | cons p rest ih =>
    intro _
    cases rest with
    | nil =>
      show (csvLine p.1 p.2 ++ writeRows []).data = bodyCore [p] ++ ['\r', '\n']
      rw [String.data_append, csvLine_data]
      show (rowChars (p.1, p.2) ++ ['\r', '\n']) ++ [] = rowChars p ++ ['\r', '\n']
      simp
    | cons r rest' =>
      show (csvLine p.1 p.2 ++ writeRows (r :: rest')).data =
        bodyCore (p :: r :: rest') ++ ['\r', '\n']
      rw [String.data_append, csvLine_data, ih (by simp)]
      show (rowChars (p.1, p.2) ++ ['\r', '\n']) ++
          (bodyCore (r :: rest') ++ ['\r', '\n']) =
        (rowChars p ++ '\r' :: '\n' :: bodyCore (r :: rest')) ++ ['\r', '\n']
      simp

theorem bodyCore_snoc : ∀ (P : List (PyFloat × PyFloat)), P ≠ [] →
    ∃ c cs, bodyCore P = cs ++ [c] ∧ isPySpace c = false := by
  intro P
  induction P with
  | nil => intro h; exact absurd rfl h
  | cons p rest ih =>
    intro _
    cases rest with
    | nil =>
      obtain ⟨c, cs, hsnoc, hmem⟩ := exists_snoc_of_ne_nil (rowChars_ne_nil (p := p))
      exact ⟨c, cs, hsnoc, rowChars_not_space c hmem⟩
    | cons r rest' =>
      obtain ⟨c, cs, hsnoc, hsp⟩ := ih (by simp)
      refine ⟨c, rowChars p ++ '\r' :: '\n' :: cs, ?_, hsp⟩
      show rowChars p ++ '\r' :: '\n' :: bodyCore (r :: rest') = _
      rw [hsnoc]
      simp

theorem pyStripL_append_ws {A S : List Char} (hA : ∀ c ∈ A, isPySpace c = false)
    (hS : ∀ c ∈ S, isPySpace c = true) : pyStripL (A ++ S) = A := by
  cases A with
  | nil =>
    unfold pyStripL
    rw [List.nil_append, dropWhile_all hS]
    rfl
  | cons a A' =>
    unfold pyStripL
    rw [show (a :: A') ++ S = a :: (A' ++ S) from rfl]
    rw [List.dropWhile_cons, if_neg (by simp [hA a (by simp)])]
    rw [show (a :: (A' ++ S)).reverse = S.reverse ++ (a :: A').reverse by simp]
    rw [dropWhile_append_all (fun c hc => hS c (List.mem_reverse.mp hc))]
    rw [dropWhile_eq_self_of_all (fun c hc => hA c (List.mem_reverse.mp hc))]
    simp

theorem pySplitL_bodyCore : ∀ (P : List (PyFloat × PyFloat)), P ≠ [] →
    pySplitL '\n' (bodyCore P) = splitRows P := by
  intro P
  induction P with
  | nil => intro h; exact absurd rfl h
  | cons p rest ih =>
    intro _
    cases rest with
    | nil =>
      show pySplitL '\n' (rowChars p) = [rowChars p]
      exact pySplitL_no_sep rowChars_no_nl
    | cons r rest' =>
      show pySplitL '\n' (rowChars p ++ '\r' :: '\n' :: bodyCore (r :: rest')) =
        (rowChars p ++ ['\r']) :: splitRows (r :: rest')
      rw [show rowChars p ++ '\r' :: '\n' :: bodyCore (r :: rest') =
          (rowChars p ++ ['\r']) ++ '\n' :: bodyCore (r :: rest') by simp]
      rw [pySplitL_append (fun c hc => by
        rcases List.mem_append.mp hc with h1 | h2
        · exact rowChars_no_nl c h1
        · have h3 : c = '\r' := by simpa using h2
          subst h3
          decide)]
      rw [ih (by simp)]

theorem splitRows_mem : ∀ (P : List (PyFloat × PyFloat)) (l : List Char),
    l ∈ splitRows P → ∃ p, l = rowChars p ∨ l = rowChars p ++ ['\r'] := by
  intro P
  induction P with
  | nil => intro l hl; exact absurd hl (by simp [splitRows])
  | cons p rest ih =>
    intro l hl
    cases rest with
    | nil =>
      have h2 : l = rowChars p := by simpa [splitRows] using hl
      exact ⟨p, Or.inl h2⟩
    | cons r rest' =>
      rw [show splitRows (p :: r :: rest') =
          (rowChars p ++ ['\r']) :: splitRows (r :: rest') from rfl] at hl
      rcases List.mem_cons.mp hl with rfl | h2
      · exact ⟨p, Or.inr rfl⟩
      · exact ih l h2


theorem pyStrip_rowChars (p : PyFloat × PyFloat) :
    pyStrip ⟨rowChars p⟩ = ⟨rowChars p⟩ := by
  show (⟨pyStripL (rowChars p)⟩ : String) = _
  rw [pyStripL_eq_self rowChars_not_space]

theorem pyStrip_rowChars_cr (p : PyFloat × PyFloat) :
    pyStrip ⟨rowChars p ++ ['\r']⟩ = ⟨rowChars p⟩ := by
  show (⟨pyStripL (rowChars p ++ ['\r'])⟩ : String) = _
  rw [pyStripL_append_ws rowChars_not_space (by
    intro c hc
    have h2 : c = '\r' := by simpa using hc
    subst h2
    rfl)]

theorem pySplit_rowChars (p : PyFloat × PyFloat) :
    pySplit ',' ⟨rowChars p⟩ = [pyRepr p.1, pyRepr p.2] := by
  show (pySplitL ',' (rowChars p)).map (fun l => (⟨l⟩ : String)) = _
  rw [show rowChars p = (pyRepr p.1).data ++ ',' :: (pyRepr p.2).data from rfl]
  rw [pySplitL_append (fun c hc => (pyRepr_ne_special c hc).1)]
  rw [pySplitL_no_sep (fun c hc => (pyRepr_ne_special c hc).1)]
  rfl

theorem headerLike_rowChars (l : List Char) (p : PyFloat × PyFloat)
    (hstrip : pyStrip ⟨l⟩ = ⟨rowChars p⟩) : headerLike ⟨l⟩ = false := by
  obtain ⟨c, cs, hcons, hne⟩ := rowChars_head_ne_t p
  unfold headerLike
  have h2 : pyStripL l = rowChars p := congrArg String.data hstrip
  rw [show (String.toList ⟨l⟩ : List Char) = l from rfl, h2, hcons]
  show ('t' :: [',', 'y'] : List Char).isPrefixOf (c :: cs) = false
  show (('t' == c) && List.isPrefixOf [',', 'y'] cs) = false
  rw [Bool.and_eq_false_iff]
  left
  exact beq_eq_false_iff_ne.mpr (fun h3 => hne h3.symm)

theorem splitRows_kept (P : List (PyFloat × PyFloat)) (l : List Char)
    (hl : l ∈ splitRows P) :
    ((⟨l⟩ : String) ≠ "" ∧ ¬ headerLike ⟨l⟩) := by
  obtain ⟨p, hp | hp⟩ := splitRows_mem P l hl
  · subst hp
    refine ⟨?_, by rw [headerLike_rowChars _ p (pyStrip_rowChars p)]; simp⟩
    intro h2
    exact rowChars_ne_nil (congrArg String.data h2)
  · subst hp
    refine ⟨?_, by rw [headerLike_rowChars _ p (pyStrip_rowChars_cr p)]; simp⟩
    intro h2
    have h3 := congrArg String.data h2
    simp at h3

theorem parse_splitRows : ∀ (P : List (PyFloat × PyFloat)),
    (∀ p ∈ P, pyFloat (pyRepr p.1) = some p.1 ∧ pyFloat (pyRepr p.2) = some p.2) →
    parseLines ((splitRows P).map (fun l => (⟨l⟩ : String))) =
      .ok (P.map Prod.fst, P.map Prod.snd) := by
  intro P
  induction P with
  | nil => intro _; rfl
  | cons p rest ih =>
    intro h
    have hp := h p (by simp)
    cases rest with
    | nil =>
      show parseLines [⟨rowChars p⟩] = _
      rw [parseLines_cons_two _ _ _ _ (by
        rw [pyStrip_rowChars]
        exact pySplit_rowChars p), hp.1, hp.2]
      rfl
    | cons r rest' =>
      show parseLines (⟨rowChars p ++ ['\r']⟩ ::
        (splitRows (r :: rest')).map (fun l => (⟨l⟩ : String))) = _
      rw [parseLines_cons_two _ _ _ _ (by
        rw [pyStrip_rowChars_cr]
        exact pySplit_rowChars p), hp.1, hp.2]
      rw [ih (fun p' hp' => h p' (by simp [hp']))]
      rfl

theorem parseLines_ok_members {ls : List String} {ts ys : List PyFloat}
    (h : parseLines ls = .ok (ts, ys)) :
    (∀ x ∈ ts, ∃ s, pyFloat s = some x) ∧
      (∀ y ∈ ys, ∃ s, pyFloat s = some y) := by
  induction ls generalizing ts ys with
  | nil =>
    simp only [parseLines, Except.ok.injEq, Prod.mk.injEq] at h
    rw [← h.1, ← h.2]
    simp
  | cons l rest ih =>
    rw [parseLines] at h
    split at h
    · rename_i a b heq
      split at h
      · exact absurd h (by simp)
      · rename_i t hfa
        split at h
        · exact absurd h (by simp)
        · rename_i y hfb
          cases hrec : parseLines rest with
          | error m => rw [hrec] at h; exact absurd h (by simp [Except.map])
          | ok pr =>
            rw [hrec] at h
            obtain ⟨ts', ys'⟩ := pr
            simp only [Except.map, Except.ok.injEq, Prod.mk.injEq] at h
            rw [← h.1, ← h.2]
            obtain ⟨ih1, ih2⟩ := ih hrec
            constructor
            · intro x hx
              rcases List.mem_cons.mp hx with rfl | hx2
              · exact ⟨a, hfa⟩
              · exact ih1 x hx2
            · intro y2 hy
              rcases List.mem_cons.mp hy with rfl | hy2
              · exact ⟨b, hfb⟩
              · exact ih2 y2 hy2
    · exact ih h

theorem solveRun_ok_parseStdout {exePath : String} {req : SolveReq}
    {b : BackendBehavior} {ts ys : List PyFloat}
    (h : (solveRun exePath req b).2 = .ok (ts, ys)) :
    ∃ out, parseStdout out = .ok (ts, ys) := by
  rw [solveRun] at h
  split at h
  · exact absurd h (by simp)
  · split at h
    · exact absurd h (by simp)
    · split at h
      · rename_i s hs
        simp only [Except.ok.injEq] at h
        exact ⟨_, by rw [hs, h]⟩
      · exact absurd h (by simp)

theorem parse_write_roundtrip (ts ys : List PyFloat) (hlen : ts.length = ys.length)
    (hts : ∀ x ∈ ts, pyFloat (pyRepr x) = some x)
    (hys : ∀ y ∈ ys, pyFloat (pyRepr y) = some y) :
    parseStdout (writeCSV ts ys) = .ok (ts, ys) := by
  cases hzip : ts.zip ys with
  | nil =>
    rcases List.zip_eq_nil_iff.mp hzip with h1 | h1
    · have h2 : ys = [] := by
        rw [← List.length_eq_zero, ← hlen, h1]
        rfl
      rw [h1, h2]
      rfl
    · have h2 : ts = [] := by
        rw [← List.length_eq_zero, hlen, h1]
        rfl
      rw [h1, h2]
      rfl
  | cons p0 P' =>
    have hmem : ∀ pr ∈ p0 :: P',
        pyFloat (pyRepr pr.1) = some pr.1 ∧ pyFloat (pyRepr pr.2) = some pr.2 := by
      rintro ⟨x, y⟩ hpr
      have h2 := List.of_mem_zip (hzip ▸ hpr)
      exact ⟨hts x h2.1, hys y h2.2⟩
    have hdata : (writeCSV ts ys).data =
        ['t', ',', 'y', '\r', '\n'] ++ (bodyCore (p0 :: P') ++ ['\r', '\n']) := by
      unfold writeCSV
      rw [String.data_append, hzip, writeRows_data _ (by simp)]
    obtain ⟨c, cs, hsnoc, hcsp⟩ := bodyCore_snoc (p0 :: P') (by simp)
    have hstrip : pyStripL (writeCSV ts ys).data =
        ['t', ',', 'y', '\r', '\n'] ++ bodyCore (p0 :: P') := by
      rw [hdata, hsnoc]
      rw [show (['t', ',', 'y', '\r', '\n'] : List Char) ++
            ((cs ++ [c]) ++ ['\r', '\n']) =
          't' :: (([',', 'y', '\r', '\n'] ++ cs) ++ [c] ++ ['\r', '\n'])
        by simp]
      rw [pyStripL_wrap 't' ([',', 'y', '\r', '\n'] ++ cs) c ['\r', '\n']
        (by decide) hcsp (by
          intro c' hc'
          have h2 : c' = '\r' ∨ c' = '\n' := by simpa using hc'
          rcases h2 with rfl | rfl <;> rfl)]
      simp
    have hdl : dataLines (writeCSV ts ys) =
        (splitRows (p0 :: P')).map (fun l => (⟨l⟩ : String)) := by
      unfold dataLines
      rw [show pySplit '\n' (pyStrip (writeCSV ts ys)) =
          (pySplitL '\n' (pyStripL (writeCSV ts ys).data)).map
            (fun l => (⟨l⟩ : String)) from rfl]
      rw [hstrip]
      rw [show ['t', ',', 'y', '\r', '\n'] ++ bodyCore (p0 :: P') =
          ['t', ',', 'y', '\r'] ++ '\n' :: bodyCore (p0 :: P') by simp]
      rw [pySplitL_append (by decide)]
      rw [pySplitL_bodyCore _ (by simp)]
      rw [List.map_cons, List.filter_cons]
      rw [if_neg (by decide)]
      apply List.filter_eq_self.mpr
      intro s hs
      rw [List.mem_map] at hs
      obtain ⟨l, hl, rfl⟩ := hs
      exact decide_eq_true (splitRows_kept (p0 :: P') l hl)
    unfold parseStdout
    rw [hdl, parse_splitRows _ hmem, ← hzip,
      List.map_fst_zip ts ys (le_of_eq hlen),
      List.map_snd_zip ts ys (le_of_eq hlen.symm)]

/-- C8: writing a successful solve's series with `solve_to_file` (header
row then one comma-separated row per sample) and parsing the written
text back through the output parser reproduces the same series. -/
theorem solve_to_file_roundtrip (exePath : String) (req : SolveReq)
    (b : BackendBehavior) (ts ys : List PyFloat)
    (h : (solveRun exePath req b).2 = .ok (ts, ys)) :
    solve_to_file exePath req b = .ok (writeCSV ts ys) ∧
      parseStdout (writeCSV ts ys) = .ok (ts, ys) := by
  constructor
  · unfold solve_to_file
    rw [h]
  · obtain ⟨out, hout⟩ := solveRun_ok_parseStdout h
    have hlen : ts.length = ys.length := parseLines_ok_length hout
    obtain ⟨hm1, hm2⟩ := parseLines_ok_members hout
    exact parse_write_roundtrip ts ys hlen
      (fun x hx => (hm1 x hx).elim (fun s hs => reprSafe_of_parsed hs))
      (fun y hy => (hm2 y hy).elim (fun s hs => reprSafe_of_parsed hs))

theorem solve_to_file_roundtrip_witness :
    solve_to_file "ode_solver" {} ⟨some 1, 0, "t,y\n0.5,1.0\n", ""⟩ =
        .ok (writeCSV [PyFloat.finite (mkRat 1 2)] [PyFloat.finite 1]) ∧
      parseStdout (writeCSV [PyFloat.finite (mkRat 1 2)] [PyFloat.finite 1]) =
        .ok ([PyFloat.finite (mkRat 1 2)], [PyFloat.finite 1]) :=
  solve_to_file_roundtrip "ode_solver" {} ⟨some 1, 0, "t,y\n0.5,1.0\n", ""⟩
    [PyFloat.finite (mkRat 1 2)] [PyFloat.finite 1] (by rfl)

end OdeSolver
